import Mathlib

/-!
Verification of the llamafile chatbot session loop
(src/llamafile/chatbot.cpp).

The development shallowly embeds the parts of the program that the
session-loop specification talks about:

- character classification and whitespace word-splitting, mirroring
  `std::isalpha`, `isspace` and `std::istringstream` extraction as used by
  `is_empty` and `handle_command`;
- the slash-command dispatcher `handle_command` (lines 86-109), modelled as
  a function from the global mutable state it touches (`n_past`,
  `FLAG_log_disable`, and the context-size queries) to a handled flag, the
  updated state and a list of output events;
- the fatal context-overflow diagnostic `die_out_of_context` (lines
  132-139), modelled as the data of the message it prints and the exit
  status it passes to `exit`;
- the batched evaluator `eval_tokens` (lines 141-151) and `eval_id` (lines
  153-157), with the external `llama_decode` call abstracted as a boolean
  oracle taking the chunk and the absolute position `n_past`; an
  instrumented variant records every decode call so the theorems can speak
  about the chunks the engine was given;
- the token-generation loop of `chatbot_main` (lines 249-259), with
  sampling, end-of-generation detection and detokenization abstracted as an
  engine record, and the asynchronous `g_got_sigint` flag modelled by the
  flag stored in the state together with a schedule of signal arrivals
  observed at the top of each iteration;
- the outer REPL of `chatbot_main` (lines 217-248) reduced to the trace of
  chat-template/tokenizer calls it makes: the initial system turn and one
  user turn per line that is neither blank nor a recognized command.

The C loop `for (i = 0; i < N; i += n_batch)` does not terminate when
`n_batch <= 0`; the Lean version therefore runs on fuel `tokens.length`,
which is exact for every positive batch size (each iteration consumes at
least one token), and the theorems assume `0 < n_batch` exactly where the
specification does.
-/

/-- ASCII test mirroring `std::isalpha` in the C locale: the character is
in the range a-z or A-Z. -/
def isAlphaAscii (c : Char) : Bool :=
  decide ((97 ≤ c.toNat ∧ c.toNat ≤ 122) ∨ (65 ≤ c.toNat ∧ c.toNat ≤ 90))

/-- ASCII test mirroring `isspace` in the C locale: space, tab, newline,
vertical tab, form feed or carriage return. -/
def isSpaceAscii (c : Char) : Bool :=
  decide (c.toNat = 32 ∨ (9 ≤ c.toNat ∧ c.toNat ≤ 13))

/-- Mirror of `is_empty` (chatbot.cpp lines 53-59): true iff every
character of the line is whitespace. -/
def is_empty (s : List Char) : Bool :=
  s.all isSpaceAscii

/-- Accumulator pass of `words`: scans the characters, collecting the
current word reversed in `acc`, emitting it whenever whitespace or the end
of the input is reached.  This mirrors repeated `iss >> arg` extraction
from a `std::istringstream`. -/
def words_aux : List Char → List Char → List (List Char)
  | [], acc => if acc.isEmpty then [] else [acc.reverse]
  | c :: cs, acc =>
    if isSpaceAscii c then
      if acc.isEmpty then words_aux cs [] else acc.reverse :: words_aux cs []
    else
      words_aux cs (c :: acc)

/-- Whitespace-separated words of a character list, as produced by the
`while (iss >> arg) args.push_back(arg)` loop of `handle_command`. -/
def words (s : List Char) : List (List Char) :=
  words_aux s []

/-- The global mutable state read or written by `handle_command`:
`n_past`, the context sizes `llama_n_ctx` / `llama_n_ctx_train` queried
through the engine handles, and `FLAG_log_disable`. -/
structure CmdState where
  n_past : Nat
  n_ctx : Nat
  n_ctx_train : Nat
  log_disable : Bool
deriving DecidableEq

/-- Observable output of one `handle_command` call.  `timings` records the
value of `FLAG_log_disable` at the moment `llama_print_timings` runs. -/
inductive OutEvent
  | timings (log_disable_during : Bool)
  | context_report (used : Nat) (configured : Nat) (remaining : Int)
  | context_hint (max_ctx : Nat)
  | unrecognized (name : List Char)
deriving DecidableEq

/-- Mirror of `handle_command` (chatbot.cpp lines 86-109).  Returns the
boolean the C function returns, the updated global state, and the printed
events.  The line is a command iff it starts with a slash followed by an
alphabetic character; the remainder is split on whitespace and the first
word selects the action.  The `[]` branch of the inner match is unreachable
(the character after the slash is alphabetic, hence not whitespace; see the
argument-safety theorem below), matching the fact that the C code indexes
`args[0]` unconditionally. -/
def handle_command (s : CmdState) (command : List Char) : Bool × CmdState × List OutEvent :=
  match command with
  | c0 :: c1 :: rest =>
    if c0 = '/' ∧ isAlphaAscii c1 = true then
      match words (c1 :: rest) with
      | [] => (true, s, [])
      | arg0 :: _ =>
        if arg0 = "stats".toList then
          (true, ⟨s.n_past, s.n_ctx, s.n_ctx_train, true⟩, [OutEvent.timings false])
        else if arg0 = "context".toList then
          (true, s,
            OutEvent.context_report s.n_past s.n_ctx ((s.n_ctx : Int) - (s.n_past : Int)) ::
              (if s.n_ctx < s.n_ctx_train then [OutEvent.context_hint s.n_ctx_train] else []))
        else
          (true, s, [OutEvent.unrecognized arg0])
    else
      (false, s, [])
  | _ => (false, s, [])

/-- How the REPL of `chatbot_main` (lines 238-248) routes one input line:
blank lines are skipped, lines `handle_command` accepts are commands, and
everything else becomes a user chat turn. -/
inductive Route
  | blank
  | command
  | chat
deriving DecidableEq

/-- Routing decision of `chatbot_main` for one line, in source order:
`is_empty` first, then `handle_command`, else chat. -/
def route_line (s : CmdState) (line : List Char) : Route :=
  if is_empty line then Route.blank
  else if (handle_command s line).1 then Route.command
  else Route.chat

/-- Role tag of a chat-template call made by `chatbot_main`. -/
inductive TurnKind
  | system
  | user
deriving DecidableEq

/-- One render-and-tokenize call made by `chatbot_main`: the role of the
turn, the final argument passed to `llama_chat_apply_template`
(`is_continuation`), and the `add_special` / `parse_special` arguments
passed through `eval_string` to `llama_tokenize`. -/
structure TurnEval where
  kind : TurnKind
  is_continuation : Bool
  add_special : Bool
  parse_special : Bool
deriving DecidableEq

/-- Render/tokenize calls made by the REPL body (chatbot.cpp lines
230-261) on a list of input lines: blank lines and recognized commands
produce none; every other line produces a user turn rendered with
`is_continuation = true` and tokenized with `add_special = false`,
`parse_special = true` (lines 246-248). -/
def repl_turns (s : CmdState) : List (List Char) → List TurnEval
  | [] => []
  | line :: ls =>
    if is_empty line then repl_turns s ls
    else
      match handle_command s line with
      | (true, s', _) => repl_turns s' ls
      | (false, _, _) => TurnEval.mk TurnKind.user true false true :: repl_turns s ls

/-- Render/tokenize calls of a whole session (chatbot.cpp lines 217-261):
the initial system turn is rendered with `is_continuation = false` and
tokenized with `add_special = add_bos`, where `add_bos` is the value of
`llama_should_add_bos_token` for the loaded model (line 218), followed by
the REPL turns. -/
def session_turns (add_bos : Bool) (s : CmdState) (lines : List (List Char)) : List TurnEval :=
  TurnEval.mk TurnKind.system false add_bos true :: repl_turns s lines

/-- Observable effect of `die_out_of_context` (chatbot.cpp lines 132-139):
a message on stderr carrying `n_past` and `llama_n_ctx_train(g_model)`,
then `exit(1)`. -/
structure Diagnostic where
  to_error_stream : Bool
  reported_n_past : Nat
  reported_n_ctx_train : Nat
  exit_code : Nat
deriving DecidableEq

/-- Mirror of `die_out_of_context`: report the current token count and the
training-time maximum context size on the error stream and exit with
status 1. -/
def die_out_of_context (n_past n_ctx_train : Nat) : Diagnostic :=
  ⟨true, n_past, n_ctx_train, 1⟩

/-- Fuel-driven body of `eval_tokens` (chatbot.cpp lines 141-151).  One
iteration takes the next chunk `tokens.take n_batch` (the C code computes
`n_eval = min(n_batch, N - i)`), asks the decode oracle whether
`llama_decode` accepts it at absolute position `n_past`, and on success
advances `n_past` by the chunk length and continues on the remaining
tokens; on failure the C code calls `die_out_of_context`, modelled as
`Except.error n_past`.  The fuel only pays for the non-termination of the
C loop at `n_batch <= 0`: with `0 < n_batch` every iteration consumes at
least one token, so fuel `tokens.length` is never exhausted. -/
def eval_tokens_go (decode : List Int → Nat → Bool) (n_batch : Nat) :
    Nat → List Int → Nat → Except Nat Nat
  | _, [], n_past => Except.ok n_past
  | 0, _ :: _, n_past => Except.ok n_past
  | fuel + 1, t :: ts, n_past =>
    let chunk := (t :: ts).take n_batch
    if decode chunk n_past then
      eval_tokens_go decode n_batch fuel ((t :: ts).drop n_batch) (n_past + chunk.length)
    else
      Except.error n_past

/-- Mirror of `eval_tokens`: feed `tokens` to the engine in chunks of at
most `n_batch`, starting at absolute position `n_past`; return the final
`n_past` on success, or `Except.error` carrying the `n_past` at which the
failing chunk was submitted. -/
def eval_tokens (decode : List Int → Nat → Bool) (tokens : List Int) (n_batch : Nat)
    (n_past : Nat) : Except Nat Nat :=
  eval_tokens_go decode n_batch tokens.length tokens n_past

/-- One `llama_decode` call recorded by the instrumented evaluator: the
chunk submitted, the absolute position at which it was submitted, and
whether the engine accepted it. -/
structure DecodeCall where
  chunk : List Int
  pos : Nat
  ok : Bool
deriving DecidableEq

/-- Instrumented body of `eval_tokens`: identical control flow to
`eval_tokens_go`, additionally returning the list of decode calls made. -/
def eval_tokens_calls_go (decode : List Int → Nat → Bool) (n_batch : Nat) :
    Nat → List Int → Nat → List DecodeCall × Except Nat Nat
  | _, [], n_past => ([], Except.ok n_past)
  | 0, _ :: _, n_past => ([], Except.ok n_past)
  | fuel + 1, t :: ts, n_past =>
    let chunk := (t :: ts).take n_batch
    if decode chunk n_past then
      let r := eval_tokens_calls_go decode n_batch fuel ((t :: ts).drop n_batch)
        (n_past + chunk.length)
      (DecodeCall.mk chunk n_past true :: r.1, r.2)
    else
      ([DecodeCall.mk chunk n_past false], Except.error n_past)

/-- Instrumented `eval_tokens`: the decode-call trace together with the
result. -/
def eval_tokens_calls (decode : List Int → Nat → Bool) (tokens : List Int) (n_batch : Nat)
    (n_past : Nat) : List DecodeCall × Except Nat Nat :=
  eval_tokens_calls_go decode n_batch tokens.length tokens n_past

/-- Mirror of `eval_id` (chatbot.cpp lines 153-157): evaluate the single
token `id` with batch size 1. -/
def eval_id (decode : List Int → Nat → Bool) (id : Int) (n_past : Nat) : Except Nat Nat :=
  eval_tokens decode [id] 1 n_past

/-- The `n_past` value carried by an evaluator result, whether the run
succeeded or died. -/
def except_val : Except Nat Nat → Nat
  | Except.ok v => v
  | Except.error v => v

/-- Total length of the chunks of the successfully accepted decode calls
of a trace. -/
def accepted_len (calls : List DecodeCall) : Nat :=
  ((calls.filter fun c => c.ok).map fun c => c.chunk.length).sum

/-- Total length of the chunks of all decode calls of a trace. -/
def total_len (calls : List DecodeCall) : Nat :=
  (calls.map fun c => c.chunk.length).sum

/-- The calls of a trace are consecutive: the first is submitted at
position `p` and each subsequent one at the previous position plus the
previous chunk length. -/
def chunks_wf (p : Nat) : List DecodeCall → Bool
  | [] => true
  | c :: cs => decide (c.pos = p) && chunks_wf (p + c.chunk.length) cs

/-- The engine operations consumed by the generation loop of
`chatbot_main` (lines 249-259): `llama_sampling_sample` as a function of
the accepted sampling history, `llama_token_is_eog`, and
`llama_token_to_piece`. -/
structure GenEngine where
  sample : List Int → Int
  is_eog : Int → Bool
  piece : Int → List Char

/-- Observable events of the generation loop, in the order the C code
produces them: `printed` and `flushed` for the `printf`/`fflush` pair that
streams a detokenized token, `evaled` for a successful `eval_id` at the
recorded position, and `newline` for the `printf("\n")` after the loop. -/
inductive GenEvent
  | printed (s : List Char)
  | flushed
  | evaled (id : Int) (pos : Nat)
  | newline
deriving DecidableEq

/-- How a run of the generation loop ended: end-of-generation token
(`done`), interrupt observed at the top of an iteration (`cancelled`),
`die_out_of_context` reached inside `eval_id` (`overflow`, carrying the
`n_past` the diagnostic reports), or fuel exhausted while the loop keeps
iterating (`spin`). -/
inductive GenExit
  | done
  | cancelled
  | overflow (n_past : Nat)
  | spin
deriving DecidableEq

/-- State carried across generation-loop iterations: the context position
`n_past`, the sampling history accumulated by `llama_sampling_accept`, and
the `g_got_sigint` flag. -/
structure GenState where
  n_past : Nat
  history : List Int
  sigint : Bool
deriving DecidableEq

/-- Mirror of the generation loop (chatbot.cpp lines 249-259) plus the
`g_got_sigint = 0; printf("\n")` that follows it.  `sched k` is true when
an interrupt signal has arrived before the flag check at the top of
iteration `k`; the flag observed there is `s.sigint || sched k`.  If it is
set, the loop exits at once: the flag is cleared, a newline is printed,
and neither `n_past` nor the history changes.  Otherwise one token is
sampled and accepted into the history; if it is the end-of-generation
token the loop breaks (nothing printed for it, flag cleared, newline),
else its piece is printed, the stream flushed, and the token evaluated
with batch size 1 before the next iteration.  A failing `eval_id` is the
process dying in `die_out_of_context`, so the run ends with `overflow`
after the `printed`/`flushed` events already emitted. -/
def gen_loop (eng : GenEngine) (decode : List Int → Nat → Bool) (sched : Nat → Bool) :
    Nat → Nat → GenState → List GenEvent × GenExit × GenState
  | 0, _, s => ([], GenExit.spin, s)
  | fuel + 1, k, s =>
    if s.sigint || sched k then
      ([GenEvent.newline], GenExit.cancelled, GenState.mk s.n_past s.history false)
    else
      let id := eng.sample s.history
      let hist := s.history ++ [id]
      if eng.is_eog id then
        ([GenEvent.newline], GenExit.done, GenState.mk s.n_past hist false)
      else
        match eval_id decode id s.n_past with
        | Except.error p =>
          ([GenEvent.printed (eng.piece id), GenEvent.flushed], GenExit.overflow p,
            GenState.mk s.n_past hist s.sigint)
        | Except.ok np =>
          let r := gen_loop eng decode sched fuel (k + 1) (GenState.mk np hist false)
          (GenEvent.printed (eng.piece id) :: GenEvent.flushed ::
            GenEvent.evaled id s.n_past :: r.1, r.2)

/-- Specification-side recognition predicate: a line is a command iff its
first character is the slash and its second character is alphabetic
(chatbot.cpp line 87). -/
def is_command (line : List Char) : Bool :=
  match line with
  | c0 :: c1 :: _ => decide (c0 = '/' ∧ isAlphaAscii c1 = true)
  | _ => false

/-- Decode oracle of an engine honouring the window contract exactly: a
chunk is accepted iff it fits inside the configured window. -/
def capDecode (n_ctx : Nat) (chunk : List Int) (pos : Nat) : Bool :=
  decide (pos + chunk.length ≤ n_ctx)

/-- Decode oracle that accepts every chunk. -/
def alwaysDecode : List Int → Nat → Bool := fun _ _ => true

/-- Interrupt schedule on which no signal ever arrives. -/
def noSignal : Nat → Bool := fun _ => false

/-- Interrupt schedule on which a signal is pending at the top of the
first iteration. -/
def signalAtZero : Nat → Bool := fun k => decide (k = 0)

/-- Concrete sampling engine used to instantiate the generation-loop
theorems: it samples the history length, treats token 3 as the
end-of-generation token, and detokenizes everything to the piece x. -/
def demoEngine : GenEngine :=
  GenEngine.mk (fun h => (h.length : Int)) (fun id => decide (id = 3)) (fun _ => ['x'])

/-- Concrete command state used to instantiate the dispatcher theorems:
4 tokens consumed, window 10, training window 4096, logging suppressed as
the session controller leaves it after startup. -/
def s0 : CmdState := CmdState.mk 4 10 4096 true

lemma isAlphaAscii_not_space (c : Char) (h : isAlphaAscii c = true) :
    isSpaceAscii c = false := by
  simp only [isAlphaAscii, isSpaceAscii, decide_eq_true_eq, decide_eq_false_iff_not] at *
  omega

lemma words_aux_ne_nil (l : List Char) (acc : List Char) (h : acc ≠ []) :
    words_aux l acc ≠ [] := by
  induction l generalizing acc with
  | nil =>
    simp only [words_aux]
    rw [if_neg (by simpa [List.isEmpty_iff] using h)]
    simp
  | cons c cs ih =>
    simp only [words_aux]
    split
    · rw [if_neg (by simpa [List.isEmpty_iff] using h)]
      simp
    · exact ih (c :: acc) (by simp)

lemma words_cons_ne_nil (c : Char) (rest : List Char) (h : isSpaceAscii c = false) :
    words (c :: rest) ≠ [] := by
  simp only [words, words_aux, h]
  exact words_aux_ne_nil rest [c] (by simp)

lemma handle_command_fst (s : CmdState) (line : List Char) :
    (handle_command s line).1 = is_command line := by
  match line with
  | [] => rfl
  | [c] => rfl
  | c0 :: c1 :: rest =>
    by_cases h : c0 = '/' ∧ isAlphaAscii c1 = true
    · have hr : is_command (c0 :: c1 :: rest) = true := by simp [is_command, h.1, h.2]
      rw [hr]
      simp only [handle_command]
      rw [if_pos h]
      cases hw : words (c1 :: rest) with
      | nil => rfl
      | cons a t =>
        split <;> try rfl
        all_goals (split <;> try rfl)
        all_goals (split <;> rfl)
    · have hr : is_command (c0 :: c1 :: rest) = false := by
        simp only [is_command, decide_eq_false_iff_not]
        exact h
      rw [hr]
      simp only [handle_command]
      rw [if_neg h]

lemma repl_turns_user (lines : List (List Char)) :
    ∀ (s : CmdState), ∀ t ∈ repl_turns s lines,
      t = TurnEval.mk TurnKind.user true false true := by
  induction lines with
  | nil =>
    intro s t ht
    simp [repl_turns] at ht
  | cons l ls ih =>
    intro s t ht
    simp only [repl_turns] at ht
    split at ht
    · exact ih s t ht
    · split at ht
      · exact ih _ t ht
      · rcases List.mem_cons.mp ht with h | h
        · exact h
        · exact ih s t h

lemma accepted_len_cons_true (ch : List Int) (q : Nat) (l : List DecodeCall) :
    accepted_len (DecodeCall.mk ch q true :: l) = ch.length + accepted_len l := by
  simp [accepted_len]

lemma accepted_len_cons_false (ch : List Int) (q : Nat) (l : List DecodeCall) :
    accepted_len (DecodeCall.mk ch q false :: l) = accepted_len l := by
  simp [accepted_len]

lemma eval_go_cons_pos (decode : List Int → Nat → Bool) (n_batch f : Nat) (t : Int)
    (ts' : List Int) (p : Nat) (hd : decode ((t :: ts').take n_batch) p = true) :
    eval_tokens_go decode n_batch (f + 1) (t :: ts') p =
      eval_tokens_go decode n_batch f ((t :: ts').drop n_batch)
        (p + ((t :: ts').take n_batch).length) := by
  simp only [eval_tokens_go, hd, if_true]

lemma eval_go_cons_neg (decode : List Int → Nat → Bool) (n_batch f : Nat) (t : Int)
    (ts' : List Int) (p : Nat) (hd : decode ((t :: ts').take n_batch) p = false) :
    eval_tokens_go decode n_batch (f + 1) (t :: ts') p = Except.error p := by
  simp only [eval_tokens_go, hd]
  simp

lemma calls_go_cons_pos (decode : List Int → Nat → Bool) (n_batch f : Nat) (t : Int)
    (ts' : List Int) (p : Nat) (hd : decode ((t :: ts').take n_batch) p = true) :
    eval_tokens_calls_go decode n_batch (f + 1) (t :: ts') p =
      (DecodeCall.mk ((t :: ts').take n_batch) p true ::
        (eval_tokens_calls_go decode n_batch f ((t :: ts').drop n_batch)
          (p + ((t :: ts').take n_batch).length)).1,
        (eval_tokens_calls_go decode n_batch f ((t :: ts').drop n_batch)
          (p + ((t :: ts').take n_batch).length)).2) := by
  simp only [eval_tokens_calls_go, hd, if_true]

lemma calls_go_cons_neg (decode : List Int → Nat → Bool) (n_batch f : Nat) (t : Int)
    (ts' : List Int) (p : Nat) (hd : decode ((t :: ts').take n_batch) p = false) :
    eval_tokens_calls_go decode n_batch (f + 1) (t :: ts') p =
      ([DecodeCall.mk ((t :: ts').take n_batch) p false], Except.error p) := by
  simp only [eval_tokens_calls_go, hd]
  simp

lemma eval_tokens_calls_go_nil (decode : List Int → Nat → Bool) (n_batch fuel p : Nat) :
    eval_tokens_calls_go decode n_batch fuel [] p = ([], Except.ok p) := by
  cases fuel <;> rfl

lemma eval_tokens_calls_go_snd (decode : List Int → Nat → Bool) (n_batch : Nat) :
    ∀ (fuel : Nat) (ts : List Int) (p : Nat),
      (eval_tokens_calls_go decode n_batch fuel ts p).2 =
        eval_tokens_go decode n_batch fuel ts p := by
  intro fuel
  induction fuel with
  | zero => intro ts p; cases ts <;> rfl
  | succ f ih =>
    intro ts p
    cases ts with
    | nil => rfl
    | cons t ts' =>
      by_cases hd : decode ((t :: ts').take n_batch) p = true
      · rw [calls_go_cons_pos decode n_batch f t ts' p hd,
          eval_go_cons_pos decode n_batch f t ts' p hd]
        exact ih _ _
      · rw [calls_go_cons_neg decode n_batch f t ts' p (by simpa using hd),
          eval_go_cons_neg decode n_batch f t ts' p (by simpa using hd)]

lemma eval_tokens_calls_go_val (decode : List Int → Nat → Bool) (n_batch : Nat) :
    ∀ (fuel : Nat) (ts : List Int) (p : Nat),
      except_val (eval_tokens_calls_go decode n_batch fuel ts p).2 =
        p + accepted_len (eval_tokens_calls_go decode n_batch fuel ts p).1 := by
  intro fuel
  induction fuel with
  | zero =>
    intro ts p
    cases ts <;> simp [eval_tokens_calls_go, except_val, accepted_len]
  | succ f ih =>
    intro ts p
    cases ts with
    | nil => simp [eval_tokens_calls_go, except_val, accepted_len]
    | cons t ts' =>
      by_cases hd : decode ((t :: ts').take n_batch) p = true
      · rw [calls_go_cons_pos decode n_batch f t ts' p hd]
        dsimp only
        rw [accepted_len_cons_true, ih]
        omega
      · rw [calls_go_cons_neg decode n_batch f t ts' p (by simpa using hd)]
        dsimp only
        rw [accepted_len_cons_false]
        simp [except_val, accepted_len]

lemma eval_tokens_calls_go_bound (decode : List Int → Nat → Bool) (n_batch n_ctx : Nat)
    (hcontract : ∀ chunk pos, decode chunk pos = true → pos + chunk.length ≤ n_ctx) :
    ∀ (fuel : Nat) (ts : List Int) (p : Nat), p ≤ n_ctx →
      except_val (eval_tokens_calls_go decode n_batch fuel ts p).2 ≤ n_ctx ∧
      ∀ c ∈ (eval_tokens_calls_go decode n_batch fuel ts p).1,
        c.ok = true → c.pos + c.chunk.length ≤ n_ctx := by
  intro fuel
  induction fuel with
  | zero =>
    intro ts p hp
    cases ts <;> simp [eval_tokens_calls_go, except_val, hp]
  | succ f ih =>
    intro ts p hp
    cases ts with
    | nil => simp [eval_tokens_calls_go, except_val, hp]
    | cons t ts' =>
      by_cases hd : decode ((t :: ts').take n_batch) p = true
      · rw [calls_go_cons_pos decode n_batch f t ts' p hd]
        have hstep := hcontract _ _ hd
        have hrec := ih ((t :: ts').drop n_batch) (p + ((t :: ts').take n_batch).length)
          (by omega)
        dsimp only
        refine ⟨hrec.1, ?_⟩
        intro c hc
        rcases List.mem_cons.mp hc with h | h
        · subst h
          intro _
          exact hstep
        · exact hrec.2 c h
      · rw [calls_go_cons_neg decode n_batch f t ts' p (by simpa using hd)]
        dsimp only
        refine ⟨hp, ?_⟩
        intro c hc
        rcases List.mem_cons.mp hc with h | h
        · subst h
          intro hok
          simp at hok
        · simp at h

lemma eval_tokens_calls_go_overflow (decode : List Int → Nat → Bool) (n_batch n_ctx : Nat)
    (hb : 0 < n_batch)
    (hcontract : ∀ chunk pos, decode chunk pos = true ↔ pos + chunk.length ≤ n_ctx) :
    ∀ (fuel : Nat) (ts : List Int) (p : Nat), ts.length ≤ fuel → p ≤ n_ctx →
      n_ctx < p + ts.length →
      ∃ q pre fail,
        (eval_tokens_calls_go decode n_batch fuel ts p).2 = Except.error q ∧
        (eval_tokens_calls_go decode n_batch fuel ts p).1 = pre ++ [fail] ∧
        (∀ c ∈ pre, c.ok = true) ∧
        fail.ok = false ∧ fail.pos = q ∧
        q = p + accepted_len (eval_tokens_calls_go decode n_batch fuel ts p).1 := by
  intro fuel
  induction fuel with
  | zero =>
    intro ts p hf hp hover
    have hts : ts = [] := List.length_eq_zero.mp (Nat.le_zero.mp hf)
    subst hts
    simp at hover
    omega
  | succ f ih =>
    intro ts p hf hp hover
    cases ts with
    | nil =>
      simp at hover
      omega
    | cons t ts' =>
      have hlen : ((t :: ts').take n_batch).length = min n_batch (t :: ts').length :=
        List.length_take _ _
      have hdlen : ((t :: ts').drop n_batch).length = (t :: ts').length - n_batch :=
        List.length_drop _ _
      by_cases hd : decode ((t :: ts').take n_batch) p = true
      · have hstep : p + ((t :: ts').take n_batch).length ≤ n_ctx := (hcontract _ _).mp hd
        rw [calls_go_cons_pos decode n_batch f t ts' p hd]
        obtain ⟨q, pre, fail, hq1, hq2, hq3, hq4, hq5, hq6⟩ :=
          ih ((t :: ts').drop n_batch) (p + ((t :: ts').take n_batch).length)
            (by simp only [hdlen]; simp at hf ⊢; omega)
            hstep
            (by simp only [hdlen, hlen] at hstep ⊢; simp at hover ⊢; omega)
        refine ⟨q, DecodeCall.mk ((t :: ts').take n_batch) p true :: pre, fail, hq1, ?_, ?_,
          hq4, hq5, ?_⟩
        · dsimp only
          rw [hq2]
          rfl
        · intro c hc
          rcases List.mem_cons.mp hc with h | h
          · subst h; rfl
          · exact hq3 c h
        · dsimp only
          rw [accepted_len_cons_true]
          omega
      · rw [calls_go_cons_neg decode n_batch f t ts' p (by simpa using hd)]
        refine ⟨p, [], DecodeCall.mk ((t :: ts').take n_batch) p false, rfl, rfl, ?_, rfl, rfl,
          ?_⟩
        · intro c hc
          simp at hc
        · dsimp only
          rw [accepted_len_cons_false]
          simp [accepted_len]

lemma eval_tokens_calls_go_chunks (decode : List Int → Nat → Bool) (n_batch : Nat)
    (hb : 0 < n_batch) :
    ∀ (fuel : Nat) (ts : List Int) (p : Nat), ts.length ≤ fuel →
      chunks_wf p (eval_tokens_calls_go decode n_batch fuel ts p).1 = true ∧
      ((eval_tokens_calls_go decode n_batch fuel ts p).1.map fun c => c.chunk).flatten =
        ts.take (total_len (eval_tokens_calls_go decode n_batch fuel ts p).1) ∧
      (∀ c ∈ (eval_tokens_calls_go decode n_batch fuel ts p).1,
        0 < c.chunk.length ∧ c.chunk.length ≤ n_batch) ∧
      (∀ v, (eval_tokens_calls_go decode n_batch fuel ts p).2 = Except.ok v →
        ((eval_tokens_calls_go decode n_batch fuel ts p).1.map fun c => c.chunk).flatten = ts ∧
          v = p + ts.length) := by
  intro fuel
  induction fuel with
  | zero =>
    intro ts p hf
    have hts : ts = [] := List.length_eq_zero.mp (Nat.le_zero.mp hf)
    subst hts
    refine ⟨rfl, rfl, ?_, ?_⟩
    · intro c hc
      simp [eval_tokens_calls_go] at hc
    · intro v hv
      simp [eval_tokens_calls_go] at hv
      simp [eval_tokens_calls_go, hv]
  | succ f ih =>
    intro ts p hf
    cases ts with
    | nil =>
      refine ⟨rfl, rfl, ?_, ?_⟩
      · intro c hc
        simp [eval_tokens_calls_go] at hc
      · intro v hv
        simp [eval_tokens_calls_go] at hv
        simp [eval_tokens_calls_go, hv]
    | cons t ts' =>
      have hlen : ((t :: ts').take n_batch).length = min n_batch (t :: ts').length :=
        List.length_take _ _
      have hdlen : ((t :: ts').drop n_batch).length = (t :: ts').length - n_batch :=
        List.length_drop _ _
      by_cases hd : decode ((t :: ts').take n_batch) p = true
      · rw [calls_go_cons_pos decode n_batch f t ts' p hd]
        obtain ⟨ih1, ih2, ih3, ih4⟩ :=
          ih ((t :: ts').drop n_batch) (p + ((t :: ts').take n_batch).length)
            (by simp only [hdlen]; simp at hf ⊢; omega)
        refine ⟨?_, ?_, ?_, ?_⟩
        · dsimp only
          simp only [chunks_wf]
          rw [ih1]
          simp
        · dsimp only
          simp only [List.map_cons, List.flatten_cons, total_len, List.map_cons, List.sum_cons]
          rw [show ((eval_tokens_calls_go decode n_batch f ((t :: ts').drop n_batch)
                (p + ((t :: ts').take n_batch).length)).1.map fun c => c.chunk.length).sum =
              total_len (eval_tokens_calls_go decode n_batch f ((t :: ts').drop n_batch)
                (p + ((t :: ts').take n_batch).length)).1 from rfl]
          rw [ih2]
          rw [List.take_add]
          congr 1
          · exact (List.take_eq_take.mpr (by omega)).symm
          · congr 1
            rcases Nat.le_total n_batch (t :: ts').length with hcase | hcase
            · congr 1
              omega
            · rw [List.drop_eq_nil_of_le hcase, List.drop_eq_nil_of_le (by omega)]
        · dsimp only
          intro c hc
          rcases List.mem_cons.mp hc with h | h
          · subst h
            dsimp only
            constructor
            · simp only [hlen]
              simp
              omega
            · simp only [hlen]
              omega
          · exact ih3 c h
        · dsimp only
          intro v hv
          obtain ⟨hj, hv2⟩ := ih4 v hv
          constructor
          · simp only [List.map_cons, List.flatten_cons, hj]
            exact List.take_append_drop _ _
          · simp only [hlen] at hv2 ⊢
            simp only [hdlen] at hv2
            omega
      · rw [calls_go_cons_neg decode n_batch f t ts' p (by simpa using hd)]
        refine ⟨?_, ?_, ?_, ?_⟩
        · simp [chunks_wf]
        · dsimp only
          simp only [List.map_cons, List.map_nil, List.flatten_cons, List.flatten_nil,
            List.append_nil, total_len, List.sum_cons, List.sum_nil]
          rw [show ((t :: ts').take n_batch).length + 0 = ((t :: ts').take n_batch).length
            from rfl]
          exact (List.take_eq_take.mpr (by simp only [hlen]; omega)).symm
        · intro c hc
          rcases List.mem_cons.mp hc with h | h
          · subst h
            dsimp only
            simp only [hlen]
            constructor
            · simp
              omega
            · omega
          · simp at h
        · intro v hv
          simp at hv

lemma filter_not_ok_append (pre : List DecodeCall) (fail : DecodeCall)
    (hpre : ∀ c ∈ pre, c.ok = true) (hfail : fail.ok = false) :
    ((pre ++ [fail]).filter fun c => !c.ok).length = 1 := by
  induction pre with
  | nil => simp [List.filter, hfail]
  | cons c cs ih =>
    have hc : c.ok = true := hpre c (by simp)
    simp only [List.cons_append, List.filter_cons, hc]
    simp only [Bool.not_true, Bool.false_eq_true, if_false]
    exact ih fun d hd => hpre d (by simp [hd])

lemma eval_id_eq (decode : List Int → Nat → Bool) (id : Int) (p : Nat) :
    eval_id decode id p = if decode [id] p then Except.ok (p + 1) else Except.error p := by
  by_cases hd : decode [id] p = true
  · simp only [eval_id, eval_tokens, eval_tokens_go, List.length_cons, List.length_nil]
    simp [hd]
  · simp only [eval_id, eval_tokens, eval_tokens_go, List.length_cons, List.length_nil]
    simp [hd]

/-- C1: under the engine contract that decode fails whenever the configured
window would be exceeded, any run of eval_tokens that starts within the
window keeps the consumed token count within the configured window after
every successful evaluation step (each accepted decode call ends at a
position at most the window size, and the final count is at most the
window size), and the final consumed count equals the initial count plus
the sum of the lengths of the successfully accepted chunks. -/
theorem eval_tokens_window_invariant (decode : List Int → Nat → Bool) (tokens : List Int)
    (n_batch n_past n_ctx : Nat)
    (hcontract : ∀ chunk pos, decode chunk pos = true → pos + chunk.length ≤ n_ctx)
    (hstart : n_past ≤ n_ctx) :
    (eval_tokens_calls decode tokens n_batch n_past).2 =
      eval_tokens decode tokens n_batch n_past ∧
    except_val (eval_tokens decode tokens n_batch n_past) =
      n_past + accepted_len (eval_tokens_calls decode tokens n_batch n_past).1 ∧
    except_val (eval_tokens decode tokens n_batch n_past) ≤ n_ctx ∧
    ∀ c ∈ (eval_tokens_calls decode tokens n_batch n_past).1,
      c.ok = true → c.pos + c.chunk.length ≤ n_ctx := by
  simp only [eval_tokens, eval_tokens_calls]
  have hsnd := eval_tokens_calls_go_snd decode n_batch tokens.length tokens n_past
  have hval := eval_tokens_calls_go_val decode n_batch tokens.length tokens n_past
  have hbound := eval_tokens_calls_go_bound decode n_batch n_ctx hcontract
    tokens.length tokens n_past hstart
  refine ⟨hsnd, ?_, ?_, hbound.2⟩
  · rw [← hsnd]
    exact hval
  · rw [← hsnd]
    exact hbound.1

/-- C1 witness: a concrete in-window run with window 10, batch 3, seven
tokens from position 0 stays within the window. -/
theorem eval_tokens_window_invariant_witness :
    except_val (eval_tokens (capDecode 10) [1, 2, 3, 4, 5, 6, 7] 3 0) ≤ 10 :=
  (eval_tokens_window_invariant (capDecode 10) [1, 2, 3, 4, 5, 6, 7] 3 0 10
    (fun chunk pos h => by simpa [capDecode] using h) (by decide)).2.2.1

/-- C2: for a token sequence longer than the remaining window capacity and
an engine whose decode accepts a chunk exactly when it fits, eval_tokens
dies with exactly one failed decode call; the reported consumed count is
the initial count plus the lengths of the chunks accepted before the
failure, the failing chunk being the last call and contributing nothing. -/
theorem eval_tokens_overflow_exactly_once (decode : List Int → Nat → Bool) (tokens : List Int)
    (n_batch n_past n_ctx : Nat) (hb : 0 < n_batch)
    (hcontract : ∀ chunk pos, decode chunk pos = true ↔ pos + chunk.length ≤ n_ctx)
    (hstart : n_past ≤ n_ctx) (hover : n_ctx < n_past + tokens.length) :
    ∃ q,
      eval_tokens decode tokens n_batch n_past = Except.error q ∧
      ((eval_tokens_calls decode tokens n_batch n_past).1.filter fun c => !c.ok).length = 1 ∧
      q = n_past + accepted_len (eval_tokens_calls decode tokens n_batch n_past).1 ∧
      ∃ pre fail,
        (eval_tokens_calls decode tokens n_batch n_past).1 = pre ++ [fail] ∧
        (∀ c ∈ pre, c.ok = true) ∧ fail.ok = false ∧ fail.pos = q := by
  simp only [eval_tokens, eval_tokens_calls]
  obtain ⟨q, pre, fail, h1, h2, h3, h4, h5, h6⟩ :=
    eval_tokens_calls_go_overflow decode n_batch n_ctx hb hcontract
      tokens.length tokens n_past le_rfl hstart hover
  refine ⟨q, ?_, ?_, h6, pre, fail, h2, h3, h4, h5⟩
  · rw [← eval_tokens_calls_go_snd]
    exact h1
  · rw [h2]
    exact filter_not_ok_append pre fail h3 h4

/-- C2 witness: twelve tokens into a window of 10 from position 0 with
batch 3 die exactly once, after three accepted chunks. -/
theorem eval_tokens_overflow_exactly_once_witness :
    ∃ q,
      eval_tokens (capDecode 10) [1, 2, 3, 4, 5, 6, 7, 8, 9, 10, 11, 12] 3 0 = Except.error q ∧
      ((eval_tokens_calls (capDecode 10) [1, 2, 3, 4, 5, 6, 7, 8, 9, 10, 11, 12] 3 0).1.filter
        fun c => !c.ok).length = 1 ∧
      q = 0 + accepted_len
        (eval_tokens_calls (capDecode 10) [1, 2, 3, 4, 5, 6, 7, 8, 9, 10, 11, 12] 3 0).1 ∧
      ∃ pre fail,
        (eval_tokens_calls (capDecode 10) [1, 2, 3, 4, 5, 6, 7, 8, 9, 10, 11, 12] 3 0).1 =
          pre ++ [fail] ∧
        (∀ c ∈ pre, c.ok = true) ∧ fail.ok = false ∧ fail.pos = q :=
  eval_tokens_overflow_exactly_once (capDecode 10) [1, 2, 3, 4, 5, 6, 7, 8, 9, 10, 11, 12] 3 0 10
    (by decide) (fun chunk pos => by simp [capDecode]) (by decide) (by decide)

/-- C3: for every token sequence and positive batch size, eval_tokens
submits consecutive chunks: each decode call is made at the running
consumed count (which advances by exactly the chunk length on success),
every chunk is non-empty and of length at most the batch size, the chunks
concatenate to a prefix of the input, and a fully successful run consumes
exactly the whole sequence, advancing the count by its total length. -/
theorem eval_tokens_chunking (decode : List Int → Nat → Bool) (tokens : List Int)
    (n_batch n_past : Nat) (hb : 0 < n_batch) :
    (eval_tokens_calls decode tokens n_batch n_past).2 =
      eval_tokens decode tokens n_batch n_past ∧
    chunks_wf n_past (eval_tokens_calls decode tokens n_batch n_past).1 = true ∧
    ((eval_tokens_calls decode tokens n_batch n_past).1.map fun c => c.chunk).flatten =
      tokens.take (total_len (eval_tokens_calls decode tokens n_batch n_past).1) ∧
    (∀ c ∈ (eval_tokens_calls decode tokens n_batch n_past).1,
      0 < c.chunk.length ∧ c.chunk.length ≤ n_batch) ∧
    ∀ v, eval_tokens decode tokens n_batch n_past = Except.ok v →
      ((eval_tokens_calls decode tokens n_batch n_past).1.map fun c => c.chunk).flatten =
        tokens ∧ v = n_past + tokens.length := by
  simp only [eval_tokens, eval_tokens_calls]
  have hsnd := eval_tokens_calls_go_snd decode n_batch tokens.length tokens n_past
  obtain ⟨h1, h2, h3, h4⟩ :=
    eval_tokens_calls_go_chunks decode n_batch hb tokens.length tokens n_past le_rfl
  refine ⟨hsnd, h1, h2, h3, ?_⟩
  intro v hv
  exact h4 v (by rw [hsnd]; exact hv)

/-- C3 witness: five tokens with batch 2 from position 0 produce a
well-positioned consecutive chunk trace. -/
theorem eval_tokens_chunking_witness :
    chunks_wf 0 (eval_tokens_calls (capDecode 10) [1, 2, 3, 4, 5] 2 0).1 = true :=
  (eval_tokens_chunking (capDecode 10) [1, 2, 3, 4, 5] 2 0 (by decide)).2.1

/-- C4 counterexample: at the concrete overflow point with 10 consumed
tokens and a training window of 4096, the status passed to exit is 1,
which is not distinct from the reserved statuses 0 through 3 - it
coincides with the bad-arguments status - so the distinctness part of the
claim is false. -/
theorem die_exit_code_counterexample :
    ¬ ((die_out_of_context 10 4096).exit_code ≠ 0 ∧
       (die_out_of_context 10 4096).exit_code ≠ 1 ∧
       (die_out_of_context 10 4096).exit_code ≠ 2 ∧
       (die_out_of_context 10 4096).exit_code ≠ 3) := by
  decide

/-- C4 (amended): on context overflow the process terminates with a
diagnostic on the error stream reporting the current token count and the
maximum context size the model supports in training, and exits with the
non-zero status 1 - which coincides with the bad-arguments exit code
rather than being distinct from the exit codes 0 through 3. -/
theorem die_out_of_context_spec (n_past n_ctx_train : Nat) :
    die_out_of_context n_past n_ctx_train = Diagnostic.mk true n_past n_ctx_train 1 ∧
    (die_out_of_context n_past n_ctx_train).exit_code ≠ 0 :=
  ⟨rfl, by simp [die_out_of_context]⟩

/-- C5: a line is dispatched as a command exactly when its first character
is the slash and its second is alphabetic; the line /context is routed as
a command and produces no render/tokenize call, /contextfoo is handled as
an unrecognized command named contextfoo, while context without a slash, a
bare slash, and a slash followed by a non-alphabetic character are all
routed as chat text. -/
theorem command_dispatch_rule :
    (∀ (s : CmdState) (line : List Char),
        (handle_command s line).1 = true ↔
          ∃ c rest, line = '/' :: c :: rest ∧ isAlphaAscii c = true) ∧
    route_line s0 ("/context".toList) = Route.command ∧
    repl_turns s0 [("/context".toList)] = [] ∧
    handle_command s0 ("/contextfoo".toList) =
      (true, s0, [OutEvent.unrecognized ("contextfoo".toList)]) ∧
    route_line s0 ("context".toList) = Route.chat ∧
    repl_turns s0 [("context".toList)] = [TurnEval.mk TurnKind.user true false true] ∧
    route_line s0 ("/".toList) = Route.chat ∧
    route_line s0 ("/1".toList) = Route.chat := by
  refine ⟨?_, by decide, by decide, by decide, by decide, by decide, by decide, by decide⟩
  intro s line
  rw [handle_command_fst]
  match line with
  | [] => simp [is_command]
  | [c] => simp [is_command]
  | c0 :: c1 :: rest =>
    simp only [is_command, decide_eq_true_eq]
    constructor
    · rintro ⟨h0, h1⟩
      exact ⟨c1, rest, by rw [h0], h1⟩
    · rintro ⟨c, r, heq, h1⟩
      injection heq with e1 e2
      injection e2 with e3 e4
      subst e1
      subst e3
      exact ⟨rfl, h1⟩

/-- C6: if the interrupt flag is observed set at the top of a sampling
step, the generation loop stops without sampling: the only output is the
separating newline, the flag is cleared, and both the consumed token count
and the sampling history (the tokens already streamed and folded into
context) are left exactly as they were. -/
theorem gen_loop_cancel (eng : GenEngine) (decode : List Int → Nat → Bool) (sched : Nat → Bool)
    (f k : Nat) (s : GenState) (hflag : (s.sigint || sched k) = true) :
    gen_loop eng decode sched (f + 1) k s =
      ([GenEvent.newline], GenExit.cancelled, GenState.mk s.n_past s.history false) := by
  simp only [gen_loop, hflag]
  simp

/-- C6 witness: with a signal pending at iteration 0 the loop cancels
immediately, leaving position 5 and history unchanged. -/
theorem gen_loop_cancel_witness :
    gen_loop demoEngine alwaysDecode signalAtZero 1 0 (GenState.mk 5 [7] false) =
      ([GenEvent.newline], GenExit.cancelled, GenState.mk 5 [7] false) :=
  gen_loop_cancel demoEngine alwaysDecode signalAtZero 0 0 (GenState.mk 5 [7] false) (by decide)

/-- C7: in an uninterrupted generation step the sampled token is folded
into the sampling history before anything else; if it is the
end-of-generation token the turn ends with only the separating newline and
no text printed for it, otherwise its detokenized piece is printed, the
stream is flushed, and the token is evaluated with batch size 1, advancing
the consumed count by exactly one before the next sampling step runs. -/
theorem gen_loop_step (eng : GenEngine) (decode : List Int → Nat → Bool) (sched : Nat → Bool)
    (f k : Nat) (s : GenState) (hs : s.sigint = false) (hk : sched k = false) :
    (eng.is_eog (eng.sample s.history) = true →
      gen_loop eng decode sched (f + 1) k s =
        ([GenEvent.newline], GenExit.done,
          GenState.mk s.n_past (s.history ++ [eng.sample s.history]) false)) ∧
    (eng.is_eog (eng.sample s.history) = false →
      decode [eng.sample s.history] s.n_past = true →
      gen_loop eng decode sched (f + 1) k s =
        (GenEvent.printed (eng.piece (eng.sample s.history)) :: GenEvent.flushed ::
            GenEvent.evaled (eng.sample s.history) s.n_past ::
            (gen_loop eng decode sched f (k + 1)
              (GenState.mk (s.n_past + 1) (s.history ++ [eng.sample s.history]) false)).1,
          (gen_loop eng decode sched f (k + 1)
            (GenState.mk (s.n_past + 1) (s.history ++ [eng.sample s.history]) false)).2)) := by
  have hflag : (s.sigint || sched k) = false := by rw [hs, hk]; rfl
  constructor
  · intro heog
    simp only [gen_loop, hflag, Bool.false_eq_true, if_false, heog, if_true]
  · intro heog hdec
    simp only [gen_loop, hflag, Bool.false_eq_true, if_false, heog]
    rw [eval_id_eq, if_pos hdec]

/-- C7 witness: one uninterrupted non-terminal step from position 0 prints
the piece, flushes, evaluates the token at position 0 and recurses at
position 1 with the token in the history. -/
theorem gen_loop_step_witness :
    gen_loop demoEngine alwaysDecode noSignal 1 0 (GenState.mk 0 [] false) =
      (GenEvent.printed ['x'] :: GenEvent.flushed :: GenEvent.evaled 0 0 ::
          (gen_loop demoEngine alwaysDecode noSignal 0 1 (GenState.mk 1 [0] false)).1,
        (gen_loop demoEngine alwaysDecode noSignal 0 1 (GenState.mk 1 [0] false)).2) := by
  have h := (gen_loop_step demoEngine alwaysDecode noSignal 0 0 (GenState.mk 0 [] false)
    rfl rfl).2 (by decide) (by decide)
  simpa using h

/-- C8 counterexample: for a model whose add-beginning-of-sequence flag is
false, the initial system turn is tokenized with add_special = false, so
the claim that the rendered system turn is always tokenized with a
beginning-of-sequence marker added fails. -/
theorem session_bos_counterexample :
    (session_turns false (CmdState.mk 0 10 10 true) []).head? =
      some (TurnEval.mk TurnKind.system false false true) ∧
    ¬ ∃ t ∈ session_turns false (CmdState.mk 0 10 10 true) [],
        t.kind = TurnKind.system ∧ t.add_special = true := by
  decide

/-- C8 (amended): the renderer is invoked with is_continuation = false for
the initial system turn and is_continuation = true for every user turn;
the system turn is tokenized with add_special equal to the model's
add-beginning-of-sequence flag (a marker is added exactly when the model
asks for one), while user turns are always tokenized without one. -/
theorem session_turns_spec (add_bos : Bool) (s : CmdState) (lines : List (List Char)) :
    (session_turns add_bos s lines).head? =
      some (TurnEval.mk TurnKind.system false add_bos true) ∧
    ∀ t ∈ (session_turns add_bos s lines).tail,
      t = TurnEval.mk TurnKind.user true false true := by
  refine ⟨rfl, ?_⟩
  intro t ht
  exact repl_turns_user lines s t ht

/-- C9: dispatching the stats command emits the timing report with log
suppression relaxed while the report runs (the timings event records the
suppression flag as cleared), restores the suppression flag afterwards to
its value from before the command (the session controller suppresses
logging at startup, so it is set on entry), leaves every other component
of the state - in particular the consumed token count - unchanged, and is
recognized, so the REPL loops instead of ending the session. -/
theorem stats_command_frame (s : CmdState) (c : Char) (rest : List Char)
    (halpha : isAlphaAscii c = true)
    (hstats : (words (c :: rest)).head? = some ("stats".toList))
    (hlog : s.log_disable = true) :
    handle_command s ('/' :: c :: rest) = (true, s, [OutEvent.timings false]) ∧
    route_line s ('/' :: c :: rest) = Route.command := by
  obtain ⟨a, t, hw, ha⟩ : ∃ a t, words (c :: rest) = a :: t ∧ a = "stats".toList := by
    cases hw : words (c :: rest) with
    | nil =>
      rw [hw] at hstats
      simp at hstats
    | cons a t =>
      rw [hw] at hstats
      simp at hstats
      exact ⟨a, t, rfl, hstats⟩
  have hc : handle_command s ('/' :: c :: rest) = (true, s, [OutEvent.timings false]) := by
    simp only [handle_command]
    rw [if_pos (show True ∧ isAlphaAscii c = true from ⟨trivial, halpha⟩), hw]
    split
    · rename_i heq
      simp at heq
    · rename_i arg0 tail heq
      injection heq with e1 e2
      subst e1
      rw [if_pos ha]
      obtain ⟨np, nc, nt, ld⟩ := s
      simp only [CmdState.mk.injEq]
      simp at hlog
      simp [hlog]
  have hne : is_empty ('/' :: c :: rest) = false := by
    rw [is_empty, List.all_cons, show isSpaceAscii '/' = false from by decide, Bool.false_and]
  refine ⟨hc, ?_⟩
  rw [route_line, if_neg (by rw [hne]; simp), hc]
  simp

/-- C9 witness: the concrete line /stats from the startup state emits one
timings event with logging enabled during the report, leaves the state
unchanged, and is routed as a command. -/
theorem stats_command_frame_witness :
    handle_command s0 ('/' :: 's' :: "tats".toList) = (true, s0, [OutEvent.timings false]) ∧
    route_line s0 ('/' :: 's' :: "tats".toList) = Route.command :=
  stats_command_frame s0 's' ("tats".toList) (by decide) (by decide) rfl

/-- C10: whenever dispatch recognizes a line as a command - first
character slash, second alphabetic - splitting the remainder of the line
on whitespace yields at least one word, so selecting the first word as the
command name is always well-defined. -/
theorem command_args_nonempty (line : List Char) (c : Char) (rest : List Char)
    (hline : line = '/' :: c :: rest) (halpha : isAlphaAscii c = true) :
    words (line.drop 1) ≠ [] := by
  subst hline
  show words (c :: rest) ≠ []
  exact words_cons_ne_nil c rest (isAlphaAscii_not_space c halpha)

/-- C10 witness: the remainder of the concrete command line /stats splits
into at least one word. -/
theorem command_args_nonempty_witness : words (("/stats".toList).drop 1) ≠ [] :=
  command_args_nonempty ("/stats".toList) 's' ("tats".toList) (by decide) (by decide)
